import Mathlib

/-!
Verification of the AutoGenAgent web-page summarization pipeline.

Python strings are modelled as `List Char` (a Python `str` is a sequence of
code points).  The external tiktoken tokenizer is modelled abstractly as a
`Tokenizer` structure (an encode/decode pair); the concrete instance
`charTok` treats every character as one token and round-trips exactly,
which is the interface the chunker relies on.

Embedded components:
* `clean_content`      — ContentProcessorAgent._clean_content
* `split_into_chunks`  — ContentProcessorAgent._split_into_chunks
* `process_content`    — ContentProcessorAgent.process_content
* `summarize_each`     — the per-chunk loop of SummarizationAgentTeam.start_summarization
* `integrate_stage`    — the integration step of SummarizationAgentTeam.start_summarization
* `start_summarization`— SummarizationAgentTeam.start_summarization
* `save_summary`, `get_summary_by_url` — SummaryStorage
-/

/-- Whitespace as matched by Python's regex class backslash-s on ASCII input:
space, tab, newline, carriage return, form feed and vertical tab.
(Non-ASCII unicode whitespace is not modelled; no claim depends on it.) -/
def isPySpace (c : Char) : Bool :=
  c = ' ' || c = '\t' || c = '\n' || c = '\x0d' || c = '\x0c' || c = '\x0b'

/-- Sentence-terminating punctuation of the regex
`(?<=[.!?。！？])` in `_split_into_chunks`. -/
def isSentEnd (c : Char) : Bool :=
  c = '.' || c = '!' || c = '?' || c = '。' || c = '！' || c = '？'

/-- Whether a list of characters starts with a whitespace character. -/
def firstIsSpace : List Char → Bool
  | [] => false
  | c :: _ => isPySpace c

/-- Python `content.split("\n\n")`: split on each non-overlapping occurrence
of a blank-line separator, scanning left to right. -/
def splitOnBlank : List Char → List (List Char)
  | [] => [[]]
  | [c] => [[c]]
  | c :: d :: rest =>
    if c = '\n' ∧ d = '\n' then
      [] :: splitOnBlank rest
    else
      match splitOnBlank (d :: rest) with
      | [] => [[c]]
      | h :: t => (c :: h) :: t

/-- Python `"\n\n".join(parts)`. -/
def joinBlank : List (List Char) → List Char
  | [] => []
  | [x] => x
  | x :: xs => x ++ '\n' :: '\n' :: joinBlank xs

/-- Worker for the sentence split
`re.split(r'(?<=[.!?。！？])\s+', para)`: a cut happens after a
sentence-ending character that is followed by whitespace, and the whole
greedy whitespace run is consumed.  `skipWs = true` means the scanner is
inside the whitespace run that follows a cut (with an empty accumulator). -/
def sentAux (skipWs : Bool) (acc : List Char) : List Char → List (List Char)
  | [] => [acc.reverse]
  | c :: rest =>
    if skipWs && isPySpace c then
      sentAux true acc rest
    else if isSentEnd c && firstIsSpace rest then
      (c :: acc).reverse :: sentAux true [] rest
    else
      sentAux false (c :: acc) rest

/-- Python `re.split(r'(?<=[.!?。！？])\s+', para)`. -/
def splitSentences (p : List Char) : List (List Char) :=
  sentAux false [] p

/-- An external tokenizer (tiktoken is an external dependency of the
repository): an encode/decode pair over an opaque token type `τ`. -/
structure Tokenizer (τ : Type) where
  encode : List Char → List τ
  decode : List τ → List Char

/-- The character-level model instance of the tokenizer: every character is
one token and decoding inverts encoding exactly. -/
def charTok : Tokenizer Char :=
  { encode := fun s => s, decode := fun ts => ts }

/-- Fuelled fixed-size windows over a token list, modelling
`for i in range(0, len(sent_tokens), CHUNK_SIZE): sent_tokens[i:i+CHUNK_SIZE]`.
The fuel is only there to make the recursion structural; it is always called
with fuel = length of the list, which is sufficient whenever `1 ≤ n`. -/
def tokenWindowsFuel (n : Nat) : Nat → List τ → List (List τ)
  | _, [] => []
  | 0, ts => [ts]
  | fuel + 1, ts => ts.take n :: tokenWindowsFuel n fuel (ts.drop n)

/-- Fixed-size token windows of width `n` (the forced hard-split of an
oversized sentence). -/
def tokenWindows (n : Nat) (ts : List τ) : List (List τ) :=
  tokenWindowsFuel n ts.length ts

/-- Accumulator state of the chunking loop in `_split_into_chunks`:
the emitted chunks, the pieces of the chunk under construction
(`current_chunk`), and its token length (`current_length`). -/
structure ChunkState where
  chunks : List (List Char)
  cur : List (List Char)
  curLen : Nat

/-- The body of the inner sentence loop of `_split_into_chunks`
(the branch for an oversized paragraph). -/
def stepSent (tk : Tokenizer τ) (n : Nat) (st : ChunkState) (sent : List Char) :
    ChunkState :=
  let sentToks := tk.encode sent
  let sentLen := sentToks.length
  if n < sentLen then
    { st with chunks := st.chunks ++ (tokenWindows n sentToks).map tk.decode }
  else if n < st.curLen + sentLen then
    { chunks := st.chunks ++ [joinBlank st.cur], cur := [sent], curLen := sentLen }
  else
    { st with cur := st.cur ++ [sent], curLen := st.curLen + sentLen }

/-- The body of the paragraph loop of `_split_into_chunks`. -/
def stepPara (tk : Tokenizer τ) (n : Nat) (st : ChunkState) (para : List Char) :
    ChunkState :=
  let paraLen := (tk.encode para).length
  if n < paraLen then
    (splitSentences para).foldl (stepSent tk n) st
  else if n < st.curLen + paraLen then
    { chunks := st.chunks ++ [joinBlank st.cur], cur := [para], curLen := paraLen }
  else
    { st with cur := st.cur ++ [para], curLen := st.curLen + paraLen }

/-- ContentProcessorAgent._split_into_chunks: greedy paragraph accumulation,
falling back to sentence granularity for an oversized paragraph, and to
fixed-size token windows for an oversized sentence. -/
def split_into_chunks (tk : Tokenizer τ) (n : Nat) (content : List Char) :
    List (List Char) :=
  if (tk.encode content).length ≤ n then
    [content]
  else
    let paragraphs :=
      (splitOnBlank content).filter (fun p => !(p.all isPySpace))
    let st := paragraphs.foldl (stepPara tk n) ⟨[], [], 0⟩
    if st.cur.isEmpty then st.chunks else st.chunks ++ [joinBlank st.cur]

/-- A chunk tagged with its provenance: `soft pieces` is a chunk flushed by
the greedy accumulator (its text is the pieces joined by a blank line);
`hard text` is one fixed-size token window of the forced hard-split of an
oversized sentence. -/
inductive TChunk where
  | soft (pieces : List (List Char)) : TChunk
  | hard (text : List Char) : TChunk
deriving DecidableEq

/-- The text of a tagged chunk. -/
def TChunk.text : TChunk → List Char
  | .soft pieces => joinBlank pieces
  | .hard t => t

/-- State of the tagged chunking loop. -/
structure TChunkState where
  chunks : List TChunk
  cur : List (List Char)
  curLen : Nat

/-- Tagged version of `stepSent`. -/
def stepSentT (tk : Tokenizer τ) (n : Nat) (st : TChunkState) (sent : List Char) :
    TChunkState :=
  let sentToks := tk.encode sent
  let sentLen := sentToks.length
  if n < sentLen then
    { st with chunks :=
        st.chunks ++ (tokenWindows n sentToks).map (fun w => .hard (tk.decode w)) }
  else if n < st.curLen + sentLen then
    { chunks := st.chunks ++ [.soft st.cur], cur := [sent], curLen := sentLen }
  else
    { st with cur := st.cur ++ [sent], curLen := st.curLen + sentLen }

/-- Tagged version of `stepPara`. -/
def stepParaT (tk : Tokenizer τ) (n : Nat) (st : TChunkState) (para : List Char) :
    TChunkState :=
  let paraLen := (tk.encode para).length
  if n < paraLen then
    (splitSentences para).foldl (stepSentT tk n) st
  else if n < st.curLen + paraLen then
    { chunks := st.chunks ++ [.soft st.cur], cur := [para], curLen := paraLen }
  else
    { st with cur := st.cur ++ [para], curLen := st.curLen + paraLen }

/-- `_split_into_chunks` instrumented with the provenance of every chunk;
erasing the tags gives `split_into_chunks` (theorem `split_into_chunksT_text`). -/
def split_into_chunksT (tk : Tokenizer τ) (n : Nat) (content : List Char) :
    List TChunk :=
  if (tk.encode content).length ≤ n then
    [.soft [content]]
  else
    let paragraphs :=
      (splitOnBlank content).filter (fun p => !(p.all isPySpace))
    let st := paragraphs.foldl (stepParaT tk n) ⟨[], [], 0⟩
    if st.cur.isEmpty then st.chunks else st.chunks ++ [.soft st.cur]

/-- Tag erasure on chunking states. -/
def eraseSt (st : TChunkState) : ChunkState :=
  ⟨st.chunks.map TChunk.text, st.cur, st.curLen⟩

theorem stepSent_erase (tk : Tokenizer τ) (n : Nat) (st : TChunkState)
    (s : List Char) :
    stepSent tk n (eraseSt st) s = eraseSt (stepSentT tk n st s) := by
  simp only [stepSent, stepSentT, eraseSt]
  split
  · simp [List.map_map, Function.comp_def, TChunk.text]
  · split <;> simp [TChunk.text]

theorem foldSent_erase (tk : Tokenizer τ) (n : Nat) (l : List (List Char))
    (st : TChunkState) :
    l.foldl (stepSent tk n) (eraseSt st) = eraseSt (l.foldl (stepSentT tk n) st) := by
  induction l generalizing st with
  | nil => rfl
  | cons s l ih => simp only [List.foldl_cons, stepSent_erase, ih]

theorem stepPara_erase (tk : Tokenizer τ) (n : Nat) (st : TChunkState)
    (p : List Char) :
    stepPara tk n (eraseSt st) p = eraseSt (stepParaT tk n st p) := by
  simp only [stepPara, stepParaT]
  split
  · exact foldSent_erase tk n _ st
  · simp only [eraseSt]
    split <;> simp [TChunk.text]

theorem foldPara_erase (tk : Tokenizer τ) (n : Nat) (l : List (List Char))
    (st : TChunkState) :
    l.foldl (stepPara tk n) (eraseSt st) = eraseSt (l.foldl (stepParaT tk n) st) := by
  induction l generalizing st with
  | nil => rfl
  | cons p l ih => simp only [List.foldl_cons, stepPara_erase, ih]

/-- Erasing the provenance tags of the instrumented chunker yields exactly
the plain `_split_into_chunks`. -/
theorem split_into_chunksT_text (tk : Tokenizer τ) (n : Nat) (content : List Char) :
    (split_into_chunksT tk n content).map TChunk.text =
      split_into_chunks tk n content := by
  simp only [split_into_chunks, split_into_chunksT]
  split
  · simp [TChunk.text, joinBlank]
  · have h := foldPara_erase tk n
      ((splitOnBlank content).filter (fun p => !(p.all isPySpace))) ⟨[], [], 0⟩
    have he : eraseSt ⟨[], [], 0⟩ = (⟨[], [], 0⟩ : ChunkState) := rfl
    rw [he] at h
    rw [h]
    simp only [eraseSt]
    split <;> simp [TChunk.text]

/-- Sum of the estimated token counts of a list of pieces; this is exactly
the quantity `current_length` tracks in `_split_into_chunks` (the blank-line
separators inserted by the final join are not counted). -/
def sumEst (tk : Tokenizer τ) (pieces : List (List Char)) : Nat :=
  (pieces.map (fun p => (tk.encode p).length)).sum

/-- Loop invariant of the chunking loop: already flushed soft chunks have
piece sums within the budget, and `curLen` is the piece sum of the chunk
under construction, itself within the budget. -/
def ChunkInv (tk : Tokenizer τ) (n : Nat) (st : TChunkState) : Prop :=
  (∀ pieces, TChunk.soft pieces ∈ st.chunks → sumEst tk pieces ≤ n) ∧
  st.curLen = sumEst tk st.cur ∧ st.curLen ≤ n

theorem sumEst_append (tk : Tokenizer τ) (a b : List (List Char)) :
    sumEst tk (a ++ b) = sumEst tk a + sumEst tk b := by
  simp [sumEst]

theorem stepSentT_inv (tk : Tokenizer τ) (n : Nat) (st : TChunkState)
    (s : List Char) (h : ChunkInv tk n st) :
    ChunkInv tk n (stepSentT tk n st s) := by
  obtain ⟨hb, hc, hl⟩ := h
  simp only [stepSentT]
  split
  · refine ⟨?_, hc, hl⟩
    intro pieces hm
    rcases List.mem_append.mp hm with hm | hm
    · exact hb pieces hm
    · rcases List.mem_map.mp hm with ⟨w, _, hw⟩
      cases hw
  · rename_i hns
    split
    · refine ⟨?_, ?_, ?_⟩
      · intro pieces hm
        rcases List.mem_append.mp hm with hm | hm
        · exact hb pieces hm
        · rcases List.mem_singleton.mp hm with h
          injection h with h
          rw [h, ← hc]
          exact hl
      · simp [sumEst]
      · dsimp only
        omega
    · refine ⟨hb, ?_, ?_⟩
      · rw [sumEst_append, ← hc]
        simp [sumEst]
      · dsimp only
        omega

theorem foldSentT_inv (tk : Tokenizer τ) (n : Nat) (l : List (List Char))
    (st : TChunkState) (h : ChunkInv tk n st) :
    ChunkInv tk n (l.foldl (stepSentT tk n) st) := by
  induction l generalizing st with
  | nil => exact h
  | cons s l ih => exact ih _ (stepSentT_inv tk n st s h)

theorem stepParaT_inv (tk : Tokenizer τ) (n : Nat) (st : TChunkState)
    (p : List Char) (h : ChunkInv tk n st) :
    ChunkInv tk n (stepParaT tk n st p) := by
  obtain ⟨hb, hc, hl⟩ := h
  simp only [stepParaT]
  split
  · exact foldSentT_inv tk n _ st ⟨hb, hc, hl⟩
  · split
    · refine ⟨?_, ?_, ?_⟩
      · intro pieces hm
        rcases List.mem_append.mp hm with hm | hm
        · exact hb pieces hm
        · rcases List.mem_singleton.mp hm with h
          injection h with h
          rw [h, ← hc]
          exact hl
      · simp [sumEst]
      · dsimp only
        omega
    · refine ⟨hb, ?_, ?_⟩
      · rw [sumEst_append, ← hc]
        simp [sumEst]
      · dsimp only
        omega

theorem foldParaT_inv (tk : Tokenizer τ) (n : Nat) (l : List (List Char))
    (st : TChunkState) (h : ChunkInv tk n st) :
    ChunkInv tk n (l.foldl (stepParaT tk n) st) := by
  induction l generalizing st with
  | nil => exact h
  | cons p l ih => exact ih _ (stepParaT_inv tk n st p h)

/-- C1 (corrected). For every tokenizer, input text and `max_tokens ≥ 1`,
every chunk of `_split_into_chunks` that is not a forced hard-split window
is a blank-line join of pieces (whole paragraphs or sentences) whose
estimated token counts sum to at most `max_tokens`; the blank-line
separators the join inserts are not counted against the budget, so the
chunk's own estimate may exceed `max_tokens` by the separators' tokens. -/
theorem chunk_soft_pieces_sum_le (tk : Tokenizer τ) (n : Nat) (content : List Char)
    (pieces : List (List Char)) (_hn : 1 ≤ n)
    (hm : TChunk.soft pieces ∈ split_into_chunksT tk n content) :
    sumEst tk pieces ≤ n := by
  revert hm
  simp only [split_into_chunksT]
  split
  · rename_i hle
    intro hm
    rcases List.mem_singleton.mp hm with h
    injection h with h
    rw [h]
    simpa [sumEst] using hle
  · intro hm
    have hinv := foldParaT_inv tk n
      ((splitOnBlank content).filter (fun p => !(p.all isPySpace)))
      ⟨[], [], 0⟩ ⟨(fun _ h => by cases h), rfl, Nat.zero_le n⟩
    obtain ⟨hb, hc, hl⟩ := hinv
    revert hm
    split
    · intro hm
      exact hb pieces hm
    · intro hm
      rcases List.mem_append.mp hm with hm | hm
      · exact hb pieces hm
      · rcases List.mem_singleton.mp hm with h
        injection h with h
        rw [h, ← hc]
        exact hl

/-- Witness for `chunk_soft_pieces_sum_le` at a concrete input: for
`max_tokens = 4` and text `"ab\n\ncd\n\nef"`, the soft chunk joining
`"ab"` and `"cd"` has piece sum `4 ≤ 4`. -/
theorem chunk_soft_pieces_sum_le_wit :
    sumEst charTok ["ab".data, "cd".data] ≤ 4 :=
  chunk_soft_pieces_sum_le charTok 4 ("ab\n\ncd\n\nef".data)
    ["ab".data, "cd".data] (by decide) (by decide)

/-- Counterexample to C1 as stated: with the character-level tokenizer and
`max_tokens = 4`, the input `"ab\n\ncd\n\nef"` produces the chunk
`"ab\n\ncd"`, which is not a hard-split window (it is a soft chunk flushed
by the accumulator) yet has estimated token count `6 > 4`, because the
blank-line separator inserted by the join is not counted by the loop. -/
theorem chunk_size_bound_cx :
    split_into_chunksT charTok 4 ("ab\n\ncd\n\nef".data) =
      [TChunk.soft ["ab".data, "cd".data], TChunk.soft ["ef".data]] ∧
    split_into_chunks charTok 4 ("ab\n\ncd\n\nef".data) =
      ["ab\n\ncd".data, "ef".data] ∧
    4 < (charTok.encode ("ab\n\ncd".data)).length := by
  decide

/-- C3 (confirmed). For every tokenizer, budget and input text whose
estimated token count is at most the budget, `_split_into_chunks` returns
exactly the one-element sequence containing the input unchanged. -/
theorem chunk_short_passthrough (tk : Tokenizer τ) (n : Nat) (content : List Char)
    (h : (tk.encode content).length ≤ n) :
    split_into_chunks tk n content = [content] := by
  simp [split_into_chunks, h]

/-- Witness for `chunk_short_passthrough`: Scenario A, a text of 50 tokens
with `max_tokens = 6000` comes back as a single chunk equal to the input. -/
theorem chunk_short_passthrough_wit :
    split_into_chunks charTok 6000 (List.replicate 50 'a') =
      [List.replicate 50 'a'] :=
  chunk_short_passthrough charTok 6000 (List.replicate 50 'a') (by decide)


/-- The non-whitespace characters of a text, in order. -/
def nonWs (s : List Char) : List Char :=
  s.filter (fun c => !isPySpace c)

theorem nonWs_append (a b : List Char) : nonWs (a ++ b) = nonWs a ++ nonWs b := by
  simp [nonWs]

theorem nonWs_cons (c : Char) (s : List Char) :
    nonWs (c :: s) = nonWs [c] ++ nonWs s := by
  by_cases h : isPySpace c <;> simp [nonWs, List.filter_cons, h]

theorem nonWs_newline_cons (s : List Char) : nonWs ('\n' :: s) = nonWs s := by
  simp [nonWs, List.filter_cons, show isPySpace '\n' = true from by decide]

theorem nonWs_flatten (l : List (List Char)) :
    nonWs l.flatten = (l.map nonWs).flatten := by
  induction l with
  | nil => rfl
  | cons x l ih => simp [List.flatten_cons, nonWs_append, ih]

theorem nonWs_joinBlank (l : List (List Char)) :
    nonWs (joinBlank l) = (l.map nonWs).flatten := by
  induction l with
  | nil => rfl
  | cons x l ih =>
    cases l with
    | nil => simp [joinBlank, nonWs]
    | cons y t =>
      rw [show joinBlank (x :: y :: t) = x ++ '\n' :: '\n' :: joinBlank (y :: t) from rfl]
      rw [nonWs_append, nonWs_newline_cons, nonWs_newline_cons]
      simp [ih]

theorem nonWs_of_all_space (p : List Char) (h : p.all isPySpace = true) :
    nonWs p = [] := by
  simp only [nonWs, List.filter_eq_nil_iff]
  intro c hc
  simp [List.all_eq_true.mp h c hc]

theorem nonWs_filter_para (l : List (List Char)) :
    ((l.filter (fun p => !(p.all isPySpace))).map nonWs).flatten =
      (l.map nonWs).flatten := by
  induction l with
  | nil => rfl
  | cons p l ih =>
    by_cases h : p.all isPySpace
    · simp [List.filter_cons, h, ih, nonWs_of_all_space p h]
    · simp [List.filter_cons, h, ih]

theorem splitOnBlank_ne_nil (s : List Char) : splitOnBlank s ≠ [] := by
  induction s using splitOnBlank.induct with
  | case1 => simp [splitOnBlank]
  | case2 => simp [splitOnBlank]
  | case3 c d rest h ih =>
    rw [splitOnBlank, if_pos h]
    simp
  | case4 c d rest h hnil ih =>
    exact absurd hnil ih
  | case5 c d rest h a t hs ih =>
    rw [splitOnBlank, if_neg h, hs]
    simp

theorem nonWs_splitOnBlank (s : List Char) :
    ((splitOnBlank s).map nonWs).flatten = nonWs s := by
  induction s using splitOnBlank.induct with
  | case1 => rfl
  | case2 => simp [splitOnBlank]
  | case3 c d rest h ih =>
    obtain ⟨rfl, rfl⟩ := h
    rw [splitOnBlank, if_pos ⟨rfl, rfl⟩]
    simp only [List.map_cons, List.flatten_cons, ih]
    simp [nonWs, isPySpace]
  | case4 c d rest h hnil ih =>
    exact absurd hnil (splitOnBlank_ne_nil _)
  | case5 c d rest h a t hs ih =>
    rw [splitOnBlank, if_neg h, hs]
    rw [hs] at ih
    simp only [List.map_cons, List.flatten_cons] at ih ⊢
    rw [nonWs_cons c a, List.append_assoc, ih, ← nonWs_cons]

theorem sentAux_nonWs (skipWs : Bool) (acc s : List Char) :
    ((sentAux skipWs acc s).map nonWs).flatten = nonWs acc.reverse ++ nonWs s := by
  induction skipWs, acc, s using sentAux.induct with
  | case1 skip acc => simp [sentAux, nonWs]
  | case2 skip acc c rest h ih =>
    rw [sentAux, if_pos h, ih]
    have hc : isPySpace c = true := (Bool.and_eq_true_iff.mp h).2
    rw [nonWs_cons]
    simp [nonWs, hc]
  | case3 skip acc c rest h1 h2 ih =>
    rw [sentAux, if_neg h1, if_pos h2]
    simp only [List.map_cons, List.flatten_cons, ih]
    rw [show (c :: acc).reverse = acc.reverse ++ [c] from by simp]
    rw [nonWs_append, nonWs_cons c rest]
    simp [nonWs]
  | case4 skip acc c rest h1 h2 ih =>
    rw [sentAux, if_neg h1, if_neg h2, ih]
    rw [show (c :: acc).reverse = acc.reverse ++ [c] from by simp]
    rw [nonWs_append, nonWs_cons c rest]
    simp

theorem splitSentences_nonWs (p : List Char) :
    ((splitSentences p).map nonWs).flatten = nonWs p := by
  rw [splitSentences, sentAux_nonWs]
  rfl

theorem tokenWindowsFuel_flatten (n fuel : Nat) (ts : List τ) (hn : 1 ≤ n)
    (hf : ts.length ≤ fuel) : (tokenWindowsFuel n fuel ts).flatten = ts := by
  induction fuel generalizing ts with
  | zero =>
    cases ts with
    | nil => rfl
    | cons a t => simp at hf
  | succ fuel ih =>
    cases ts with
    | nil => rfl
    | cons a t =>
      rw [show tokenWindowsFuel n (fuel + 1) (a :: t) =
        (a :: t).take n :: tokenWindowsFuel n fuel ((a :: t).drop n) from rfl]
      rw [List.flatten_cons, ih]
      · exact List.take_append_drop n (a :: t)
      · simp only [List.length_drop, List.length_cons] at *
        omega

theorem tokenWindows_flatten (n : Nat) (ts : List τ) (hn : 1 ≤ n) :
    (tokenWindows n ts).flatten = ts :=
  tokenWindowsFuel_flatten n ts.length ts hn (Nat.le_refl _)


theorem charTok_encode (s : List Char) : charTok.encode s = s := rfl

theorem charTok_decode (ts : List Char) : charTok.decode ts = ts := rfl

theorem tchunk_text_hard (t : List Char) : TChunk.text (.hard t) = t := rfl

theorem tchunk_text_soft (pieces : List (List Char)) :
    TChunk.text (.soft pieces) = joinBlank pieces := rfl

/-- The multiset of non-whitespace characters held by a chunking state:
those of the chunks already emitted plus those of the chunk under
construction. -/
def stMass (st : TChunkState) : Multiset Char :=
  (↑(nonWs (st.chunks.map TChunk.text).flatten) : Multiset Char) +
    (↑(nonWs st.cur.flatten) : Multiset Char)

theorem stepSentT_mass (n : Nat) (st : TChunkState) (s : List Char)
    (hn : 1 ≤ n) :
    stMass (stepSentT charTok n st s) = stMass st + ↑(nonWs s) := by
  simp only [stepSentT, charTok_encode, charTok_decode]
  split
  · simp only [stMass, List.map_append, List.map_map, List.flatten_append,
      Function.comp_def, tchunk_text_hard, List.map_id', nonWs_append,
      ← Multiset.coe_add, tokenWindows_flatten n s hn]
    abel
  · split
    · simp only [stMass, List.map_append, List.flatten_append, List.map_cons,
        List.map_nil, List.flatten_cons, List.flatten_nil, tchunk_text_soft,
        List.append_nil, nonWs_append, nonWs_joinBlank, ← nonWs_flatten,
        ← Multiset.coe_add]
    · simp only [stMass, List.flatten_append, List.flatten_cons,
        List.flatten_nil, List.append_nil, nonWs_append, ← Multiset.coe_add]
      abel

theorem foldSentT_mass (n : Nat) (l : List (List Char)) (st : TChunkState)
    (hn : 1 ≤ n) :
    stMass (l.foldl (stepSentT charTok n) st) =
      stMass st + ↑(nonWs l.flatten) := by
  induction l generalizing st with
  | nil => simp [nonWs]
  | cons s l ih =>
    rw [List.foldl_cons, ih, stepSentT_mass n st s hn, List.flatten_cons,
      nonWs_append, ← Multiset.coe_add]
    abel

theorem stepParaT_mass (n : Nat) (st : TChunkState) (p : List Char)
    (hn : 1 ≤ n) :
    stMass (stepParaT charTok n st p) = stMass st + ↑(nonWs p) := by
  simp only [stepParaT, charTok_encode]
  split
  · rw [foldSentT_mass n _ st hn]
    rw [show nonWs (splitSentences p).flatten = nonWs p from by
      rw [nonWs_flatten, splitSentences_nonWs]]
  · split
    · simp only [stMass, List.map_append, List.flatten_append, List.map_cons,
        List.map_nil, List.flatten_cons, List.flatten_nil, tchunk_text_soft,
        List.append_nil, nonWs_append, nonWs_joinBlank, ← nonWs_flatten,
        ← Multiset.coe_add]
    · simp only [stMass, List.flatten_append, List.flatten_cons,
        List.flatten_nil, List.append_nil, nonWs_append, ← Multiset.coe_add]
      abel

theorem foldParaT_mass (n : Nat) (l : List (List Char)) (st : TChunkState)
    (hn : 1 ≤ n) :
    stMass (l.foldl (stepParaT charTok n) st) =
      stMass st + ↑((l.map nonWs).flatten) := by
  induction l generalizing st with
  | nil => simp
  | cons p l ih =>
    rw [List.foldl_cons, ih, stepParaT_mass n st p hn, List.map_cons,
      List.flatten_cons, ← Multiset.coe_add]
    abel

/-- C2 (corrected). For every input text and `max_tokens ≥ 1` (with the
character-level tokenizer model), the chunks returned by
`_split_into_chunks` carry exactly the non-whitespace characters of the
input — none dropped, none duplicated — as a multiset: the concatenation
of all chunks, with whitespace (and hence the added separators) ignored,
is a permutation of the input's non-whitespace characters.  The original
order is not always preserved (see `chunk_coverage_cx`): the windows of a
forced hard-split are emitted before previously accumulated text. -/
theorem chunk_coverage_perm (n : Nat) (content : List Char) (hn : 1 ≤ n) :
    ((split_into_chunks charTok n content).flatten.filter
        (fun c => !isPySpace c)).Perm
      (content.filter (fun c => !isPySpace c)) := by
  rw [← Multiset.coe_eq_coe]
  show (↑(nonWs (split_into_chunks charTok n content).flatten) : Multiset Char) =
    ↑(nonWs content)
  rw [← split_into_chunksT_text]
  simp only [split_into_chunksT, charTok_encode]
  split
  · simp [tchunk_text_soft, joinBlank]
  · have hm := foldParaT_mass n
      ((splitOnBlank content).filter (fun p => !(p.all isPySpace)))
      ⟨[], [], 0⟩ hn
    have hz : stMass ⟨[], [], 0⟩ = 0 := rfl
    rw [hz, zero_add, nonWs_filter_para, nonWs_splitOnBlank] at hm
    split
    · rename_i hcur
      rw [← hm]
      simp only [stMass]
      rw [show (List.foldl (stepParaT charTok n) ⟨[], [], 0⟩
          ((splitOnBlank content).filter (fun p => !(p.all isPySpace)))).cur
          = [] from List.isEmpty_iff.mp hcur]
      simp [nonWs]
    · rw [← hm]
      simp only [stMass, List.map_append, List.flatten_append, List.map_cons,
        List.map_nil, List.flatten_cons, List.flatten_nil, tchunk_text_soft,
        List.append_nil, nonWs_append, nonWs_joinBlank, ← nonWs_flatten,
        ← Multiset.coe_add]

/-- Witness for `chunk_coverage_perm` at a concrete input. -/
theorem chunk_coverage_perm_wit :
    ((split_into_chunks charTok 4 ("ab\n\ncdefgh".data)).flatten.filter
        (fun c => !isPySpace c)).Perm
      (("ab\n\ncdefgh".data).filter (fun c => !isPySpace c)) :=
  chunk_coverage_perm 4 ("ab\n\ncdefgh".data) (by decide)

/-- Counterexample to C2 as stated: for `max_tokens = 4` and input
`"ab\n\ncdefgh"` the chunker returns `["cdef", "gh", "ab"]` — the forced
hard-split windows of the oversized second paragraph are appended before
the still-pending accumulated first paragraph is flushed, so the
concatenation (separators ignored) reads `"cdefghab"`, which is not the
input's non-whitespace content in original order (`"abcdefgh"`). -/
theorem chunk_coverage_cx :
    split_into_chunks charTok 4 ("ab\n\ncdefgh".data) =
      ["cdef".data, "gh".data, "ab".data] ∧
    (split_into_chunks charTok 4 ("ab\n\ncdefgh".data)).flatten.filter
        (fun c => !isPySpace c) ≠
      ("ab\n\ncdefgh".data).filter (fun c => !isPySpace c) := by
  decide

/-- Characters kept by step 2 of `_clean_content`, the complement of the
deleted class `[^一-龥a-zA-Z0-9.,;:!?()[\]{}，。；：！？（）【】「」『』\s\-\'"]+`:
CJK ideographs, ASCII letters and digits, the listed Latin and CJK
punctuation, whitespace, hyphen, apostrophe and double quote. -/
def isKept (c : Char) : Bool :=
  (0x4e00 ≤ c.toNat && c.toNat ≤ 0x9fa5) ||
  (97 ≤ c.toNat && c.toNat ≤ 122) ||
  (65 ≤ c.toNat && c.toNat ≤ 90) ||
  (48 ≤ c.toNat && c.toNat ≤ 57) ||
  ['.', ',', ';', ':', '!', '?', '(', ')', '[', ']', Char.ofNat 0x7b,
    Char.ofNat 0x7d, '，', '。', '；', '：', '！', '？', '（', '）', '【',
    '】', '「', '」', '『', '』', '-', Char.ofNat 39, '"'].contains c ||
  isPySpace c

/-- Step 1 of `_clean_content`:
`re.sub(r'\n\s*\n\s*\n+', '\n\n', content)`.  A match is a maximal-length
whitespace run starting with a newline, containing at least three
newlines, truncated after its last newline; each match is replaced by one
blank line and scanning resumes after it.  The fuel argument (one unit per
consumed character) only makes the recursion structural. -/
def blankRunFuel : Nat → List Char → List Char
  | _, [] => []
  | 0, s => s
  | fuel + 1, c :: rest =>
    if c = '\n' then
      let run := (c :: rest).takeWhile isPySpace
      if 3 ≤ run.count '\n' then
        let upTo := run.length - (run.reverse.takeWhile (fun d => !(d = '\n'))).length
        '\n' :: '\n' :: blankRunFuel fuel ((c :: rest).drop upTo)
      else c :: blankRunFuel fuel rest
    else c :: blankRunFuel fuel rest

/-- Step 1 of `_clean_content` with its fuel instantiated. -/
def collapseBlankRuns (s : List Char) : List Char :=
  blankRunFuel s.length s

/-- Step 3 of `_clean_content`: `re.sub(r'\s+', ' ', content)` — every
maximal whitespace run becomes a single space.  `prevSpace` records
whether the previous character belonged to a run already replaced. -/
def collapseWsAux (prevSpace : Bool) : List Char → List Char
  | [] => []
  | c :: rest =>
    if isPySpace c then
      if prevSpace then collapseWsAux true rest
      else ' ' :: collapseWsAux true rest
    else c :: collapseWsAux false rest

/-- Python `str.strip()`. -/
def pyStrip (s : List Char) : List Char :=
  ((s.dropWhile isPySpace).reverse.dropWhile isPySpace).reverse

/-- ContentProcessorAgent._clean_content: collapse runs of three or more
newlines to a blank line, delete characters outside the whitelist,
normalize every whitespace run to a single space, and strip. -/
def clean_content (content : List Char) : List Char :=
  pyStrip (collapseWsAux false (List.filter isKept (collapseBlankRuns content)))

/-- ContentProcessorAgent.process_content: clean, then chunk. -/
def process_content (tk : Tokenizer τ) (n : Nat) (content : List Char) :
    List (List Char) :=
  split_into_chunks tk n (clean_content content)

theorem collapseWsAux_mem (b : Bool) (s : List Char) (c : Char)
    (h : c ∈ collapseWsAux b s) : c = ' ' ∨ isPySpace c = false := by
  induction s generalizing b with
  | nil => cases h
  | cons d rest ih =>
    revert h
    simp only [collapseWsAux]
    split
    · split
      · exact fun h => ih true h
      · intro h
        rcases List.mem_cons.mp h with h | h
        · exact Or.inl h
        · exact ih true h
    · rename_i hd
      intro h
      rcases List.mem_cons.mp h with h | h
      · exact Or.inr (by rw [h]; exact Bool.not_eq_true _ ▸ (by simpa using hd))
      · exact ih false h

theorem pyStrip_subset (s : List Char) (c : Char) (h : c ∈ pyStrip s) : c ∈ s := by
  simp only [pyStrip, List.mem_reverse] at h
  have h1 := (List.dropWhile_sublist (l := (s.dropWhile isPySpace).reverse)
    (p := isPySpace)).subset h
  rw [List.mem_reverse] at h1
  exact (List.dropWhile_sublist (l := s) (p := isPySpace)).subset h1

theorem clean_content_newline_free (content : List Char) :
    '\n' ∉ clean_content content := by
  intro h
  have h1 := pyStrip_subset _ _ h
  rcases collapseWsAux_mem false _ '\n' h1 with h2 | h2
  · cases h2
  · simp [isPySpace] at h2

theorem splitOnBlank_of_no_newline (s : List Char) (h : '\n' ∉ s) :
    splitOnBlank s = [s] := by
  induction s using splitOnBlank.induct with
  | case1 => rfl
  | case2 c => rfl
  | case3 c d rest hcd ih =>
    exact absurd (by rw [hcd.1]; exact List.mem_cons_self _ _) h
  | case4 c d rest hcd hnil ih =>
    exact absurd hnil (splitOnBlank_ne_nil _)
  | case5 c d rest hcd a t hs ih =>
    rw [splitOnBlank, if_neg hcd, hs]
    have hdr : '\n' ∉ d :: rest := fun hm => h (List.mem_cons_of_mem c hm)
    rw [ih hdr] at hs
    injection hs with hs1 hs2
    rw [hs1, hs2]

/-- C9 (confirmed). `_clean_content` returns a string with no newline
character (every whitespace run, blank lines included, collapses to a
single space), so the paragraph split of `_split_into_chunks` on
blank-line boundaries applied to a cleaned string yields at most one
paragraph. -/
theorem clean_content_single_paragraph (content : List Char) :
    '\n' ∉ clean_content content ∧
      ((splitOnBlank (clean_content content)).filter
          (fun p => !(p.all isPySpace))).length ≤ 1 := by
  refine ⟨clean_content_newline_free content, ?_⟩
  rw [splitOnBlank_of_no_newline _ (clean_content_newline_free content)]
  exact Nat.le_trans (List.length_filter_le _ _) (by simp)

/-- Lookup in an association list keyed by strings; models reading a Python
dict (`url in index`, `index[url]`). -/
def lookupA (k : String) : List (String × α) → Option α
  | [] => none
  | (k2, v) :: rest => if k = k2 then some v else lookupA k rest

/-- Upsert into an association list; models a Python dict assignment
`index[url] = meta`: the first entry with the key is replaced in place,
otherwise the entry is appended. -/
def insertA (k : String) (v : α) : List (String × α) → List (String × α)
  | [] => [(k, v)]
  | (k2, v2) :: rest =>
    if k2 = k then (k, v) :: rest else (k2, v2) :: insertA k v rest

theorem lookupA_insertA_self (k : String) (v : α) (l : List (String × α)) :
    lookupA k (insertA k v l) = some v := by
  induction l with
  | nil => simp [insertA, lookupA]
  | cons p rest ih =>
    obtain ⟨k2, v2⟩ := p
    by_cases h : k2 = k
    · simp [insertA, h, lookupA]
    · have hk : ¬k = k2 := fun e => h e.symm
      simp [insertA, h, lookupA, hk, ih]

theorem mem_keys_insertA (k x : String) (v : α) (l : List (String × α))
    (h : x ∈ (insertA k v l).map Prod.fst) :
    x ∈ l.map Prod.fst ∨ x = k := by
  induction l with
  | nil => simpa [insertA] using h
  | cons p rest ih =>
    obtain ⟨k2, v2⟩ := p
    by_cases hk : k2 = k
    · simp only [insertA, hk, if_pos rfl, List.map_cons] at h
      rcases List.mem_cons.mp h with h | h
      · exact Or.inr h
      · exact Or.inl (by simp [h])
    · simp only [insertA, if_neg hk, List.map_cons] at h
      rcases List.mem_cons.mp h with h | h
      · exact Or.inl (by simp [h])
      · rcases ih h with h | h
        · exact Or.inl (List.mem_cons_of_mem _ h)
        · exact Or.inr h

theorem keys_insertA_nodup (k : String) (v : α) (l : List (String × α))
    (h : (l.map Prod.fst).Nodup) :
    ((insertA k v l).map Prod.fst).Nodup := by
  induction l with
  | nil => simp [insertA]
  | cons p rest ih =>
    obtain ⟨k2, v2⟩ := p
    rw [List.map_cons, List.nodup_cons] at h
    by_cases hk : k2 = k
    · subst hk
      rw [show insertA k2 v ((k2, v2) :: rest) = (k2, v) :: rest from by
        simp [insertA]]
      rw [List.map_cons, List.nodup_cons]
      exact ⟨h.1, h.2⟩
    · rw [show insertA k v ((k2, v2) :: rest) = (k2, v2) :: insertA k v rest from by
        simp [insertA, hk]]
      rw [List.map_cons, List.nodup_cons]
      refine ⟨?_, ih h.2⟩
      intro hmem
      rcases mem_keys_insertA k k2 v rest hmem with hm | hm
      · exact h.1 hm
      · exact hk hm

theorem filter_insertA_length (k : String) (v : α) (l : List (String × α))
    (h : (l.map Prod.fst).Nodup) :
    ((insertA k v l).filter (fun p => p.fst = k)).length = 1 := by
  induction l with
  | nil => simp [insertA]
  | cons p rest ih =>
    obtain ⟨k2, v2⟩ := p
    rw [List.map_cons, List.nodup_cons] at h
    by_cases hk : k2 = k
    · subst hk
      rw [show insertA k2 v ((k2, v2) :: rest) = (k2, v) :: rest from by
        simp [insertA]]
      have hrest : rest.filter (fun p => decide (p.fst = k2)) = [] := by
        rw [List.filter_eq_nil_iff]
        intro p hp hpk
        have hpk2 : p.fst = k2 := of_decide_eq_true hpk
        have hmem : p.fst ∈ rest.map Prod.fst := List.mem_map_of_mem Prod.fst hp
        rw [hpk2] at hmem
        exact h.1 hmem
      simp [List.filter_cons, hrest]
    · rw [show insertA k v ((k2, v2) :: rest) = (k2, v2) :: insertA k v rest from by
        simp [insertA, hk]]
      rw [List.filter_cons]
      simp only [decide_eq_true_eq]
      rw [if_neg hk]
      exact ih h.2

/-- Metadata of one record of the summary index file
(`summary_index.json`), keyed by URL. -/
structure Meta where
  id : String
  timestamp : String
  timestamp_unix : Nat
  preview : List Char
deriving DecidableEq

/-- A record returned by `get_summary_by_url`. -/
structure SummaryRecord where
  id : String
  url : String
  timestamp : String
  timestamp_unix : Nat
  preview : List Char
  content : List Char
deriving DecidableEq

/-- The persistent state of `SummaryStorage`: the URL-keyed index and the
per-id summary content files (`{summary_id}.txt`). -/
structure StorageState where
  index : List (String × Meta)
  files : List (String × List Char)
deriving DecidableEq

/-- The wall-clock readings `datetime.now().strftime(...)` and
`time.time()` taken during one save, passed in as data. -/
structure Stamp where
  timestamp : String
  timestamp_unix : Nat
deriving DecidableEq

/-- Python `content[:200].replace("\n", " ")`. -/
def preview200 (content : List Char) : List Char :=
  (content.take 200).map (fun c => if c = '\n' then ' ' else c)

/-- SummaryStorage.save_summary.  `freshId` stands for the value
`_url_to_id(url)` would generate (hash, clock and uuid are external
inputs); it is only consulted when no usable id exists, mirroring
`summary_id = existing_id or self._url_to_id(url)`. -/
def save_summary (st : StorageState) (url : String) (content : List Char)
    (freshId : String) (now : Stamp) : String × StorageState :=
  let existing_id : Option String :=
    match lookupA url st.index with
    | some m => some m.id
    | none => none
  let summary_id :=
    match existing_id with
    | some i => if i = "" then freshId else i
    | none => freshId
  let files2 := insertA summary_id content st.files
  let meta : Meta :=
    { id := summary_id, timestamp := now.timestamp,
      timestamp_unix := now.timestamp_unix, preview := preview200 content }
  let index2 := insertA url meta st.index
  (summary_id, { index := index2, files := files2 })

/-- SummaryStorage.get_summary_by_url: `None` when the URL is not in the
index or when the referenced content file does not exist. -/
def get_summary_by_url (st : StorageState) (url : String) :
    Option SummaryRecord :=
  match lookupA url st.index with
  | none => none
  | some m =>
    match lookupA m.id st.files with
    | none => none
    | some content =>
      some { id := m.id, url := url, timestamp := m.timestamp,
             timestamp_unix := m.timestamp_unix, preview := m.preview,
             content := content }

theorem save_index (st : StorageState) (url : String) (content : List Char)
    (freshId : String) (now : Stamp) :
    (save_summary st url content freshId now).2.index =
      insertA url
        { id := (save_summary st url content freshId now).1,
          timestamp := now.timestamp, timestamp_unix := now.timestamp_unix,
          preview := preview200 content } st.index := rfl

theorem save_files (st : StorageState) (url : String) (content : List Char)
    (freshId : String) (now : Stamp) :
    (save_summary st url content freshId now).2.files =
      insertA (save_summary st url content freshId now).1 content st.files := rfl

theorem save_id (st : StorageState) (url : String) (content : List Char)
    (freshId : String) (now : Stamp) :
    (save_summary st url content freshId now).1 =
      (match lookupA url st.index with
       | some m => if m.id = "" then freshId else m.id
       | none => freshId) := by
  cases hl : lookupA url st.index <;> simp [save_summary, hl]

/-- C10 (confirmed). If the summary index has an entry for a URL but the
referenced content file is absent, `get_summary_by_url` returns `None`
(without raising) — the same result as for a URL absent from the index. -/
theorem get_summary_missing_file_none (st : StorageState) (url : String)
    (m : Meta) (hidx : lookupA url st.index = some m)
    (hfile : lookupA m.id st.files = none) :
    get_summary_by_url st url = none ∧
      ∀ (st2 : StorageState) (url2 : String), lookupA url2 st2.index = none →
        get_summary_by_url st2 url2 = none := by
  constructor
  · simp [get_summary_by_url, hidx, hfile]
  · intro st2 url2 h2
    simp [get_summary_by_url, h2]

/-- Witness for `get_summary_missing_file_none`: an index entry for `"u"`
pointing at id `"i1"` with no content file on disk yields `None`. -/
theorem get_summary_missing_file_none_wit :
    get_summary_by_url ⟨[("u", ⟨"i1", "t", 0, []⟩)], []⟩ "u" = none :=
  (get_summary_missing_file_none ⟨[("u", ⟨"i1", "t", 0, []⟩)], []⟩ "u"
    ⟨"i1", "t", 0, []⟩ (by decide) (by decide)).1

/-- C8 (confirmed). Saving a summary for a URL twice (with a well-formed
index: unique URL keys, non-empty generated ids) keeps the record id of
the second save equal to that of the first, leaves exactly one live index
record for the URL, and a subsequent get-by-url returns the second
content. -/
theorem save_summary_id_stable (st : StorageState) (url : String)
    (c1 c2 : List Char) (f1 f2 : String) (t1 t2 : Stamp)
    (hf1 : f1 ≠ "") (hnd : (st.index.map Prod.fst).Nodup) :
    (save_summary (save_summary st url c1 f1 t1).2 url c2 f2 t2).1 =
      (save_summary st url c1 f1 t1).1 ∧
    ((save_summary (save_summary st url c1 f1 t1).2 url c2 f2 t2).2.index.filter
        (fun p => p.fst = url)).length = 1 ∧
    (get_summary_by_url
        (save_summary (save_summary st url c1 f1 t1).2 url c2 f2 t2).2 url).map
      (fun r => r.content) = some c2 := by
  have hid1ne : (save_summary st url c1 f1 t1).1 ≠ "" := by
    rw [save_id]
    cases hl : lookupA url st.index with
    | none => exact hf1
    | some m =>
      by_cases hm : m.id = ""
      · simp [hm, hf1]
      · simp [hm]
  have hlook1 : lookupA url (save_summary st url c1 f1 t1).2.index =
      some { id := (save_summary st url c1 f1 t1).1, timestamp := t1.timestamp,
             timestamp_unix := t1.timestamp_unix, preview := preview200 c1 } := by
    rw [save_index]
    exact lookupA_insertA_self _ _ _
  have hid2 : (save_summary (save_summary st url c1 f1 t1).2 url c2 f2 t2).1 =
      (save_summary st url c1 f1 t1).1 := by
    rw [save_id, hlook1]
    simp [hid1ne]
  refine ⟨hid2, ?_, ?_⟩
  · rw [save_index]
    apply filter_insertA_length
    rw [save_index]
    exact keys_insertA_nodup _ _ _ hnd
  · simp only [get_summary_by_url]
    rw [save_index, lookupA_insertA_self]
    simp only [save_files]
    rw [lookupA_insertA_self]
    simp

/-- Witness for `save_summary_id_stable` on an initially empty store. -/
theorem save_summary_id_stable_wit :
    (save_summary (save_summary ⟨[], []⟩ "u" "x".data "id1" ⟨"t1", 1⟩).2 "u"
        "y".data "id2" ⟨"t2", 2⟩).1 =
      (save_summary ⟨[], []⟩ "u" "x".data "id1" ⟨"t1", 1⟩).1 ∧
    ((save_summary (save_summary ⟨[], []⟩ "u" "x".data "id1" ⟨"t1", 1⟩).2 "u"
        "y".data "id2" ⟨"t2", 2⟩).2.index.filter
        (fun p => p.fst = "u")).length = 1 ∧
    (get_summary_by_url
        (save_summary (save_summary ⟨[], []⟩ "u" "x".data "id1" ⟨"t1", 1⟩).2 "u"
          "y".data "id2" ⟨"t2", 2⟩).2 "u").map
      (fun r => r.content) = some ("y".data) :=
  save_summary_id_stable ⟨[], []⟩ "u" "x".data "y".data "id1" "id2"
    ⟨"t1", 1⟩ ⟨"t2", 2⟩ (by decide) (by decide)

/-- The per-chunk failure placeholder of the orchestrator's summarization
loop: Python f-string `f"[块 {i+1} 处理错误]"` (already with the 1-based
index substituted). -/
def err_placeholder (i : Nat) : List Char :=
  "[块 ".data ++ (toString i).data ++ " 处理错误]".data

/-- The per-chunk summarization loop of `start_summarization` (step 3):
one summarizer call per chunk in order; a call that raises is caught and
replaced by the placeholder naming the failed chunk.  The collaborator is
indexed by the chunk position so that any pattern of per-call failures can
be expressed; shape normalization of the response (lines 92–101) always
produces a string and is folded into the collaborator's `Except` result. -/
def summarize_each (f : Nat → List Char → Except Unit (List Char))
    (chunks : List (List Char)) : List (List Char) :=
  chunks.enum.map (fun p =>
    match f p.1 p.2 with
    | .ok s => s
    | .error _ => err_placeholder (p.1 + 1))

/-- The integration step of `start_summarization` (step 4): a single
summary is used directly; otherwise the integrator is called and a raise
is caught and replaced by the blank-line concatenation of the summaries. -/
def integrate_stage
    (integrate : List (List Char) → String → Except Unit (List Char))
    (summaries : List (List Char)) (url : String) : List Char :=
  match summaries with
  | [s] => s
  | _ =>
    match integrate summaries url with
    | .ok t => t
    | .error _ => joinBlank summaries

/-- Pipeline failure: the only fatal exit of `start_summarization`
(`ValueError` when the fetched content is absent or empty, re-raised by
the outer handler). -/
inductive PipeErr where
  | fetchFailed
deriving DecidableEq

/-- Number of invocations of each collaborator during one pipeline run. -/
structure Calls where
  fetch : Nat
  chunk : Nat
  summarize : Nat
  integrate : Nat
deriving DecidableEq

/-- The collaborators and external inputs of one pipeline run: the
tokenizer and chunk budget, the web fetcher (`fetch_webpage`: `none` on
failure), the per-chunk summarizer, the integrator, and the id/clock
inputs consumed by `save_summary`. -/
structure Env (τ : Type) where
  tk : Tokenizer τ
  chunkSize : Nat
  fetch : String → Option (List Char)
  summarize : Nat → List Char → Except Unit (List Char)
  integrate : List (List Char) → String → Except Unit (List Char)
  freshId : String
  now : Stamp

/-- SummarizationAgentTeam.start_summarization: cache check, fetch (fatal
on absent or empty content), chunking, per-chunk summarization with
placeholder fallback, integration with concatenation fallback, persist.
Returns the result (or fatal error), the storage state after the run, and
the number of collaborator invocations made. -/
def start_summarization (env : Env τ) (st : StorageState) (url : String) :
    Except PipeErr (List Char) × StorageState × Calls :=
  match get_summary_by_url st url with
  | some r => (.ok r.content, st, ⟨0, 0, 0, 0⟩)
  | none =>
    match env.fetch url with
    | none => (.error .fetchFailed, st, ⟨1, 0, 0, 0⟩)
    | some raw =>
      if raw = [] then (.error .fetchFailed, st, ⟨1, 0, 0, 0⟩)
      else
        let chunks := process_content env.tk env.chunkSize raw
        let summaries := summarize_each env.summarize chunks
        let final := integrate_stage env.integrate summaries url
        let st2 := (save_summary st url final env.freshId env.now).2
        (.ok final, st2,
          ⟨1, 1, chunks.length, if summaries.length = 1 then 0 else 1⟩)

/-- C4 (confirmed). The per-chunk summarization loop produces exactly one
summary per chunk, whatever the pattern of per-call failures: the lengths
agree, and a chunk whose summarization raised is represented by the
placeholder string naming that chunk (1-based), with no failure
propagated to the caller. -/
theorem summarize_each_pairing (f : Nat → List Char → Except Unit (List Char))
    (chunks : List (List Char)) :
    (summarize_each f chunks).length = chunks.length ∧
      ∀ (i : Nat) (c : List Char) (e : Unit), chunks[i]? = some c →
        f i c = .error e →
        (summarize_each f chunks)[i]? = some (err_placeholder (i + 1)) := by
  constructor
  · simp [summarize_each]
  · intro i c e hc hf
    simp only [summarize_each, List.getElem?_map, List.getElem?_enum, hc]
    simp [hf]

/-- Witness for `summarize_each_pairing`: a single chunk whose
summarization fails yields a one-element list holding the placeholder for
chunk 1. -/
theorem summarize_each_pairing_wit :
    (summarize_each (fun _ _ => Except.error ()) ["c1".data]).length = 1 ∧
      (summarize_each (fun _ _ => Except.error ()) ["c1".data])[0]? =
        some (err_placeholder 1) := by
  have h := summarize_each_pairing (fun _ _ => Except.error ()) ["c1".data]
  exact ⟨h.1, h.2 0 ("c1".data) () rfl rfl⟩

/-- C7 (confirmed). For two or more chunk summaries, if the integration
call raises then the orchestrator absorbs the failure and the final
summary is the chunk summaries joined in order by blank lines. -/
theorem integrate_fallback
    (integrate : List (List Char) → String → Except Unit (List Char))
    (summaries : List (List Char)) (url : String)
    (hlen : 2 ≤ summaries.length)
    (herr : integrate summaries url = .error ()) :
    integrate_stage integrate summaries url = joinBlank summaries := by
  cases summaries with
  | nil => simp at hlen
  | cons a t =>
    cases t with
    | nil => simp at hlen
    | cons b t2 => simp [integrate_stage, herr]

/-- Witness for `integrate_fallback`: Scenario D with a raising backend,
yielding the blank-line concatenation of the three summaries. -/
theorem integrate_fallback_wit :
    integrate_stage (fun _ _ => Except.error ())
      ["A discusses X.".data, "B discusses Y.".data, "C discusses Z.".data]
      "u" =
      ("A discusses X.\n\nB discusses Y.\n\nC discusses Z.".data) :=
  (integrate_fallback (fun _ _ => Except.error ())
    ["A discusses X.".data, "B discusses Y.".data, "C discusses Z.".data]
    "u" (by decide) rfl).trans (by decide)

/-- C6 (confirmed). On a cache miss, if the fetch collaborator fails
(`None`) or returns empty content, the pipeline run fails with the fatal
fetch error and the summary storage (index and content files) is returned
exactly as it was — nothing is written. -/
theorem fetch_failure_no_cache (env : Env τ) (st : StorageState) (url : String)
    (hmiss : get_summary_by_url st url = none)
    (hf : env.fetch url = none ∨ env.fetch url = some []) :
    start_summarization env st url =
      (.error .fetchFailed, st, ⟨1, 0, 0, 0⟩) := by
  rcases hf with hf | hf <;> simp [start_summarization, hmiss, hf]

/-- Witness for `fetch_failure_no_cache`: a failing fetch on an empty
store leaves the store empty and reports the failure. -/
theorem fetch_failure_no_cache_wit :
    start_summarization
      ({ tk := charTok, chunkSize := 100, fetch := fun _ => none,
         summarize := fun _ _ => Except.ok [], integrate := fun _ _ => Except.ok [],
         freshId := "id", now := ⟨"t", 0⟩ } : Env Char)
      ⟨[], []⟩ "u" = (.error .fetchFailed, ⟨[], []⟩, ⟨1, 0, 0, 0⟩) :=
  fetch_failure_no_cache _ ⟨[], []⟩ "u" (by decide) (Or.inl rfl)

theorem get_after_save (st : StorageState) (url : String) (content : List Char)
    (freshId : String) (now : Stamp) :
    (get_summary_by_url (save_summary st url content freshId now).2 url).map
      (fun r => r.content) = some content := by
  simp only [get_summary_by_url]
  rw [save_index, lookupA_insertA_self]
  simp only [save_files]
  rw [lookupA_insertA_self]
  simp
/-- C5 (confirmed). After one successful pipeline run for a URL, a second
invocation for the same URL — with arbitrary collaborators — returns the
same (cached) content, leaves the storage unchanged, and performs zero
fetch, chunking, summarization and integration calls. -/
theorem cache_idempotent (env : Env τ) (env2 : Env τ2) (st : StorageState)
    (url : String) (out : List Char) (st2 : StorageState) (c : Calls)
    (h : start_summarization env st url = (.ok out, st2, c)) :
    start_summarization env2 st2 url = (.ok out, st2, ⟨0, 0, 0, 0⟩) := by
  cases hc : get_summary_by_url st url with
  | some r =>
    simp only [start_summarization, hc, Prod.mk.injEq, Except.ok.injEq] at h
    obtain ⟨h1, h2, h3⟩ := h
    rw [← h2]
    simp [start_summarization, hc, h1]
  | none =>
    cases hf : env.fetch url with
    | none =>
      simp [start_summarization, hc, hf] at h
    | some raw =>
      by_cases hraw : raw = []
      · rw [hraw] at hf
        simp [start_summarization, hc, hf] at h
      · simp only [start_summarization, hc, hf, if_neg hraw, Prod.mk.injEq,
          Except.ok.injEq] at h
        obtain ⟨h1, h2, h3⟩ := h
        subst h2
        subst h1
        have hg := get_after_save st url
          (integrate_stage env.integrate
            (summarize_each env.summarize
              (process_content env.tk env.chunkSize raw)) url)
          env.freshId env.now
        cases hgc : get_summary_by_url
            (save_summary st url
              (integrate_stage env.integrate
                (summarize_each env.summarize
                  (process_content env.tk env.chunkSize raw)) url)
              env.freshId env.now).2 url with
        | none =>
          rw [hgc] at hg
          simp at hg
        | some r2 =>
          rw [hgc] at hg
          simp at hg
          simp [start_summarization, hgc, hg]

/-- Collaborators for the concrete first run of the C5 witness. -/
def envA : Env Char :=
  { tk := charTok, chunkSize := 100, fetch := fun _ => some ("hi".data),
    summarize := fun _ _ => Except.ok ("s1".data),
    integrate := fun _ _ => Except.error (), freshId := "id1", now := ⟨"t", 5⟩ }

/-- Collaborators for the second run of the C5 witness: every collaborator
fails, so only the cache can supply the answer. -/
def envB : Env Char :=
  { tk := charTok, chunkSize := 100, fetch := fun _ => none,
    summarize := fun _ _ => Except.error (),
    integrate := fun _ _ => Except.error (), freshId := "zz", now := ⟨"x", 9⟩ }

/-- The storage state after the first run of the C5 witness. -/
def stAfterRun : StorageState :=
  ⟨[("u", { id := "id1", timestamp := "t", timestamp_unix := 5,
            preview := "s1".data })],
   [("id1", "s1".data)]⟩

/-- Witness for `cache_idempotent`: after a successful run for `"u"`, a
second run with all collaborators failing still returns the cached
summary, leaves the store unchanged and makes zero collaborator calls. -/
theorem cache_idempotent_wit :
    start_summarization envB stAfterRun "u" =
      (.ok ("s1".data), stAfterRun, ⟨0, 0, 0, 0⟩) :=
  cache_idempotent envA envB ⟨[], []⟩ "u" ("s1".data) stAfterRun
    ⟨1, 1, 1, 0⟩ (by rfl)
